import Mathlib

set_option maxHeartbeats 1000000
set_option maxRecDepth 4000

/-!
Verification of the cognitive-core Aider configuration generator
(`src/adapters/aider/generate.py`).

The Python source is shallowly embedded: pure text-producing code becomes
Lean functions on `String` / `List Char`; interactions with the filesystem
and the bash subprocess become explicit parameters (file-existence flags,
directory listings, subprocess outcomes).  Machine behaviour of the helper
subprocess (`bash -c 'set -a; source f; env | grep "^CC_"'`) is modelled at
the line level: the environment printed by `env`, filtered by the grep
prefix match.
-/

namespace CogCore

/-- Python ASCII whitespace, as used by `str.strip`, `str.split()` and the
regex class `\s` on the inputs considered here. -/
def isSpace (c : Char) : Bool :=
  c = ' ' || c = '\t' || c = '\n' || c = '\r' || c = '\x0b' || c = '\x0c'

/-- Python `str.strip()` on a character list: drop whitespace on both ends. -/
def stripChars (l : List Char) : List Char :=
  ((l.dropWhile isSpace).reverse.dropWhile isSpace).reverse

/-- Python `str.split("\n")`: split at every newline, keeping empty pieces
(`"".split("\n") == [""]`). -/
def splitOnNl : List Char → List (List Char)
  | [] => [[]]
  | c :: rest =>
    if c = '\n' then [] :: splitOnNl rest
    else
      match splitOnNl rest with
      | [] => [[c]]
      | g :: gs => (c :: g) :: gs

/-- Python `"\n".join`: interleave a newline between the pieces. -/
def intercalateNl : List (List Char) → List Char
  | [] => []
  | [l] => l
  | l :: ls => l ++ '\n' :: intercalateNl ls

/-- Python dict assignment `d[k] = v`: overwrite in place if the key is
present (keeping its position), otherwise append at the end. -/
def dictInsert (m : List (String × String)) (k v : String) : List (String × String) :=
  if m.any (fun kv => kv.1 == k) then
    m.map (fun kv => if kv.1 == k then (kv.1, v) else kv)
  else m ++ [(k, v)]

/-- Python `config.get(key, default)` over the loaded configuration. -/
def cfgGet (config : List (String × String)) (key default : String) : String :=
  match config.lookup key with
  | some v => v
  | none => default

/-! ## ConfigLoader (`load_config`, generate.py lines 26-44) -/

/-- Outcome of the `subprocess.run(["bash", "-c", cmd], ..., timeout=5)` call:
it either completes with some captured stdout, expires the timeout
(`subprocess.TimeoutExpired`), or bash itself is missing (`FileNotFoundError`). -/
inductive BashOutcome
  | ok (stdout : String)
  | timeout
  | unavailable
deriving DecidableEq

/-- One printed line of `env` output for an environment entry: `KEY=VALUE`. -/
def envLine (kv : String × String) : List Char :=
  kv.1.data ++ '=' :: kv.2.data

/-- The lines surviving `grep "^CC_"`: those whose text starts with `CC_`. -/
def envOutLines (env : List (String × String)) : List (List Char) :=
  (env.map envLine).filter (fun l => "CC_".data.isPrefixOf l)

/-- Captured stdout of the sourcing subprocess when the config file assigns
no variables: the inherited environment `env`, printed one `KEY=VALUE` line
each and filtered by the `^CC_` grep. -/
def bashStdout (env : List (String × String)) : String :=
  String.mk (intercalateNl (envOutLines env))

/-- The stdout-parsing loop of `load_config`:
`for line in result.stdout.strip().split("\n"): if "=" in line:
key, _, value = line.partition("="); config[key] = value`. -/
def parseStdout (stdout : String) : List (String × String) :=
  (splitOnNl (stripChars stdout.data)).foldl
    (fun m line =>
      if line.any (fun c => c == '=') then
        dictInsert m (String.mk (line.takeWhile (fun c => c != '=')))
          (String.mk ((line.dropWhile (fun c => c != '=')).tail))
      else m)
    []

/-- `load_config(config_file)`.  `isfile` stands for
`os.path.isfile(config_file)`; `outcome` for the subprocess call. -/
def load_config (config_file : String) (isfile : Bool) (outcome : BashOutcome) :
    List (String × String) :=
  if config_file = "" || !isfile then []
  else
    match outcome with
    | .ok stdout => parseStdout stdout
    | .timeout => []
    | .unavailable => []

/-- Well-formedness of one environment entry as `env` prints and the loader
reparses it: the key holds no newline and no equals sign, the value holds no
newline, and the value does not end in whitespace (so the outer `strip` of
the captured stdout leaves it intact). -/
def entryWf (kv : String × String) : Bool :=
  !kv.1.data.any (fun c => c == '\n' || c == '=') &&
  !kv.2.data.any (fun c => c == '\n') &&
  Option.all (fun c => !isSpace c) kv.2.data.getLast?

/-- Well-formedness of the subprocess environment: pairwise distinct keys
(as in a real process environment) and well-formed entries. -/
def envWf (env : List (String × String)) : Prop :=
  (env.map Prod.fst).Nodup ∧ ∀ kv ∈ env, entryWf kv = true

/-! ## SafetyRuleExtractor (`_extract_safety_rules` / `_default_safety_rules`,
generate.py lines 192-230) -/

/-- State of the hook file `install_dir/hooks/validate-bash.sh`: absent
(`os.path.isfile` false), unreadable (`OSError` / `UnicodeDecodeError` while
reading), or readable with some text content. -/
inductive HookFile
  | missing
  | unreadable
  | readable (content : String)

/-- The regex fragment `(.+?)"`: lazily take the shortest nonempty run of
non-newline characters followed by a double quote.  Returns the captured
group and the number of characters consumed (group plus closing quote). -/
def lazyGroup : List Char → Option (List Char × Nat)
  | c :: d :: rest =>
    if c = '\n' then none
    else if d = '"' then some ([c], 2)
    else
      match lazyGroup (d :: rest) with
      | some (g, n) => some (c :: g, n + 1)
      | none => none
  | _ => none

/-- The regex fragment `\s*(.+?)"`: greedily consume whitespace, backtracking
to shorter whitespace runs when the lazy group cannot complete. -/
def matchWs : List Char → Option (List Char × Nat)
  | [] => none
  | c :: rest =>
    if isSpace c then
      match matchWs rest with
      | some (g, n) => some (g, n + 1)
      | none => lazyGroup (c :: rest)
    else lazyGroup (c :: rest)

/-- The fixed literal head of the pattern `REASON="Blocked:\s*(.+?)"`. -/
def reasonLit : List Char := "REASON=\"Blocked:".data

/-- `re.finditer` scanning loop: try the pattern at each position, emit the
captured group on a match and resume after the match, else advance one
character.  `fuel` bounds the recursion by the input length. -/
def scanAux : Nat → List Char → List (List Char)
  | 0, _ => []
  | _, [] => []
  | fuel + 1, c :: rest =>
    if reasonLit.isPrefixOf (c :: rest) then
      match matchWs ((c :: rest).drop reasonLit.length) with
      | some (g, n) => g :: scanAux fuel ((c :: rest).drop (reasonLit.length + n))
      | none => scanAux fuel rest
    else scanAux fuel rest

/-- All captured `(.+?)` groups of `REASON="Blocked:\s*(.+?)"` over the hook
text, in order of appearance. -/
def scanReasons (s : List Char) : List (List Char) := scanAux s.length s

/-- The default safety rules of `_default_safety_rules`, one list entry per
line of the Python triple-quoted literal. -/
def defaultSafetyRulesList : List String :=
  [ "- NEVER execute: rm -rf targeting system-critical paths (/, /etc, /usr, /var, /home)",
    "- NEVER execute: git push --force to main/master",
    "- NEVER execute: git reset --hard (destructive, may lose work)",
    "- NEVER execute: DROP TABLE or TRUNCATE TABLE",
    "- NEVER execute: DELETE FROM without WHERE clause",
    "- NEVER execute: rm .git directory",
    "- NEVER execute: chmod 777 (insecure permissions)",
    "- NEVER execute: git clean -f without -n dry-run",
    "- NEVER pipe curl/wget output to sh/bash (supply chain risk)",
    "- NEVER use base64 -d | sh (encoded command execution)",
    "- NEVER use eval with command substitution",
    "- NEVER pipe environment variables to external commands" ]

/-- `_default_safety_rules()`. -/
def default_safety_rules : String := String.intercalate "\n" defaultSafetyRulesList

/-- The `rules` list built inside `_extract_safety_rules`: each captured
reason is stripped and formatted as `- NEVER: <reason>`. -/
def extractRulesList (content : String) : List String :=
  (scanReasons content.data).map (fun r => "- NEVER: " ++ String.mk (stripChars r))

/-- `_extract_safety_rules(install_dir)`, with the hook-file state made
explicit. -/
def extract_safety_rules (hook : HookFile) : String :=
  match hook with
  | .missing => default_safety_rules
  | .unreadable => default_safety_rules
  | .readable content =>
    let rules := extractRulesList content
    if rules = [] then default_safety_rules else String.intercalate "\n" rules

/-! ## Shared text helpers for the renderers -/

/-- Python `str.endswith(suffix)`: suffix test on the character list. -/
def endsWithStr (s suffix : String) : Bool := suffix.data.isSuffixOf s.data

/-- Code-point lexicographic comparison, as Python uses to sort strings. -/
def lexLt : List Char → List Char → Bool
  | [], [] => false
  | [], _ :: _ => true
  | _ :: _, [] => false
  | a :: as, b :: bs => if a < b then true else if b < a then false else lexLt as bs

/-- Insert into an ascending list, keeping existing order among equals. -/
def insertSorted (x : String) : List String → List String
  | [] => [x]
  | y :: ys => if lexLt y.data x.data then y :: insertSorted x ys else x :: y :: ys

/-- Python `sorted` on strings (ascending code-point order). -/
def sortStrings (l : List String) : List String := l.foldr insertSorted []

/-- Python `str.title()` for ASCII text: uppercase a letter that follows a
non-letter, lowercase the other letters. -/
def titleChars : List Char → Bool → List Char
  | [], _ => []
  | c :: rest, prevAlpha =>
    if c.isAlpha then (if prevAlpha then c.toLower else c.toUpper) :: titleChars rest true
    else c :: titleChars rest false

/-- Python `str.replace(old, new)` (`old` nonempty): replace every
non-overlapping occurrence, scanning left to right. -/
def replaceAll (old new : List Char) : List Char → List Char
  | [] => []
  | c :: rest =>
    if h : old ≠ [] ∧ old.isPrefixOf (c :: rest) = true then
      new ++ replaceAll old new ((c :: rest).drop old.length)
    else
      c :: replaceAll old new rest
termination_by s => s.length
decreasing_by
  · have hpos : 0 < old.length := List.length_pos.mpr h.1
    simp only [List.length_drop, List.length_cons]
    omega
  · simp

/-- `str.replace` on strings. -/
def replaceStr (s old new : String) : String := String.mk (replaceAll old.data new.data s.data)

/-- Accumulating worker for Python `str.split()`: `acc` is the token being
built (empty when between tokens). -/
def splitWsAux : List Char → List Char → List (List Char)
  | [], acc => if acc = [] then [] else [acc]
  | c :: rest, acc =>
    if isSpace c then
      (if acc = [] then splitWsAux rest [] else acc :: splitWsAux rest [])
    else splitWsAux rest (acc ++ [c])

/-- Python `str.split()`: split on runs of whitespace, dropping empty tokens. -/
def splitWsChars (l : List Char) : List (List Char) := splitWsAux l []

/-- Python `str.split()` on strings. -/
def splitWs (s : String) : List String := (splitWsChars s.data).map String.mk

/-! ## Path model (`os.path` on normalized component lists) -/

/-- `os.path.commonprefix` element count over two component lists. -/
def commonPrefixLen : List String → List String → Nat
  | a :: as, b :: bs => if a = b then commonPrefixLen as bs + 1 else 0
  | _, _ => 0

/-- `posixpath.relpath` on normalized component lists: `..` entries for the
non-shared part of `start`, then the non-shared part of `path`. -/
def relpathComps (path start : List String) : List String :=
  List.replicate (start.length - commonPrefixLen path start) ".." ++
    path.drop (commonPrefixLen path start)

/-- `os.path.join` / `sep.join` over components. -/
def joinSlash : List String → String
  | [] => ""
  | [x] => x
  | x :: xs => x ++ "/" ++ joinSlash xs

/-- Rendered result of `os.path.relpath` (`.` for an empty component list). -/
def relpath (path start : List String) : String :=
  if relpathComps path start = [] then "." else joinSlash (relpathComps path start)

/-! ## AgentReferenceBuilder (`_build_agent_refs`, generate.py lines 233-253) -/

/-- The fixed installation-relative path emitted for an agent file:
`os.path.join(".cognitive-core", "agents", agent_file)`. -/
def agentRefPath (f : String) : String := ".cognitive-core/agents/" ++ f

/-- Display name of an agent file:
`agent_file.replace(".md", "").replace("-", " ").title()`. -/
def agentDisplayName (f : String) : String :=
  String.mk (titleChars (replaceStr (replaceStr f ".md" "") "-" " ").data false)

/-- `_build_agent_refs(install_dir)`, with the listing of
`install_dir/agents` made explicit (`none` when the directory is missing). -/
def build_agent_refs (agents : Option (List String)) : String :=
  match agents with
  | none => "No agent documentation installed."
  | some files =>
    let refs := ((sortStrings files).filter (fun f => endsWithStr f ".md")).map
      (fun f => "- **" ++ agentDisplayName f ++ "**: `" ++ agentRefPath f ++ "`")
    if refs = [] then "No agent documentation installed."
    else
      "Agent documentation is available for reference:\n" ++
        String.intercalate "\n" refs ++
        "\n\nUse their guidance when working in their specialist domains."

/-! ## DocumentRenderer — Settings (`generate_settings`, generate.py
lines 47-93) -/

/-- Path of one agent file as the settings renderer emits it:
`os.path.relpath(os.path.join(install_dir, "agents", agent_file), project_dir)`. -/
def settingsAgentPath (install_dir project_dir : List String) (f : String) : String :=
  relpath (install_dir ++ ["agents", f]) project_dir

/-- The `lines` list of `generate_settings`. -/
def generate_settings_lines (project_dir install_dir : List String)
    (agents : Option (List String)) (config : List (String × String)) : List String :=
  let model := cfgGet config "CC_AIDER_MODEL" "qwen2.5-coder:32b"
  let edit_format := cfgGet config "CC_AIDER_EDIT_FORMAT" "diff"
  let lint_cmd := cfgGet config "CC_LINT_COMMAND" "echo no-lint"
  let test_cmd := cfgGet config "CC_TEST_COMMAND" "echo no-tests"
  let project_name := cfgGet config "CC_PROJECT_NAME" "project"
  [ "# cognitive-core generated Aider configuration",
    "# Platform: aider + ollama",
    "# Project: " ++ project_name,
    "",
    "# Model configuration",
    "model: ollama_chat/" ++ model,
    "editor-model: ollama_chat/" ++ model,
    "",
    "# Edit format",
    "edit-format: " ++ edit_format,
    "",
    "# Auto-lint after edits",
    "auto-lint: true",
    "lint-cmd: " ++ lint_cmd,
    "",
    "# Auto-test after edits",
    "auto-test: false",
    "test-cmd: " ++ test_cmd,
    "",
    "# Read-only context files (always in context)",
    "read:",
    "  - CONVENTIONS.md" ] ++
  (match agents with
   | none => []
   | some files =>
     ((sortStrings files).filter (fun f => endsWithStr f ".md")).map
       (fun f => "  - " ++ settingsAgentPath install_dir project_dir f))

/-- Content written to `.aider.conf.yml`. -/
def generate_settings_doc (project_dir install_dir : List String)
    (agents : Option (List String)) (config : List (String × String)) : String :=
  String.intercalate "\n" (generate_settings_lines project_dir install_dir agents config) ++ "\n"

/-! ## DocumentRenderer — Conventions (`generate_conventions`, generate.py
lines 96-189) -/

/-- Opening-brace and closing-brace characters of a placeholder. -/
def lb : Char := '\x7b'

/-- Closing brace of a placeholder. -/
def rb : Char := '\x7d'

/-- A template placeholder token for `name`: two braces, the name, two
braces. -/
def mkPh (name : List Char) : List Char := lb :: lb :: (name ++ [rb, rb])

/-- The replacement table of the template path, in the order the source
iterates it: the twelve configuration placeholders, then the computed
safety-rules block, then the computed agent-context block. -/
def conventionsPairs (config : List (String × String)) (hook : HookFile)
    (agents : Option (List String)) : List (List Char × List Char) :=
  [ (mkPh "CC_PROJECT_NAME".data, (cfgGet config "CC_PROJECT_NAME" "project").data),
    (mkPh "CC_LANGUAGE".data, (cfgGet config "CC_LANGUAGE" "unknown").data),
    (mkPh "CC_ARCHITECTURE".data, (cfgGet config "CC_ARCHITECTURE" "none").data),
    (mkPh "CC_DATABASE".data, (cfgGet config "CC_DATABASE" "none").data),
    (mkPh "CC_LINT_COMMAND".data, (cfgGet config "CC_LINT_COMMAND" "echo no-lint").data),
    (mkPh "CC_TEST_COMMAND".data, (cfgGet config "CC_TEST_COMMAND" "echo no-tests").data),
    (mkPh "CC_MAIN_BRANCH".data, (cfgGet config "CC_MAIN_BRANCH" "main").data),
    (mkPh "CC_COMMIT_FORMAT".data, (cfgGet config "CC_COMMIT_FORMAT" "conventional").data),
    (mkPh "CC_COMMIT_SCOPES".data, (cfgGet config "CC_COMMIT_SCOPES" "core").data),
    (mkPh "CC_SRC_ROOT".data, (cfgGet config "CC_SRC_ROOT" "src").data),
    (mkPh "CC_TEST_ROOT".data, (cfgGet config "CC_TEST_ROOT" "tests").data),
    (mkPh "CC_COMPACT_RULES".data, (cfgGet config "CC_COMPACT_RULES" "").data),
    (mkPh "SAFETY_RULES".data, (extract_safety_rules hook).data),
    (mkPh "AGENT_CONTEXT".data, (build_agent_refs agents).data) ]

/-- The sequential `content.replace(placeholder, value)` loop of the
template path. -/
def renderTemplate (tmpl : List Char) (pairs : List (List Char × List Char)) : List Char :=
  pairs.foldl (fun s p => replaceAll p.1 p.2 s) tmpl

/-- Template path of `generate_conventions`. -/
def generate_conventions_template (tmpl : String) (config : List (String × String))
    (hook : HookFile) (agents : Option (List String)) : String :=
  String.mk (renderTemplate tmpl.data (conventionsPairs config hook agents))

/-- Fallback path of `generate_conventions` (no template resource). -/
def generate_conventions_fallback (config : List (String × String))
    (hook : HookFile) (agents : Option (List String)) : String :=
  let project_name := cfgGet config "CC_PROJECT_NAME" "project"
  let language := cfgGet config "CC_LANGUAGE" "unknown"
  let architecture := cfgGet config "CC_ARCHITECTURE" "none"
  let database := cfgGet config "CC_DATABASE" "none"
  let lint_cmd := cfgGet config "CC_LINT_COMMAND" "echo no-lint"
  let test_cmd := cfgGet config "CC_TEST_COMMAND" "echo no-tests"
  let main_branch := cfgGet config "CC_MAIN_BRANCH" "main"
  let commit_format := cfgGet config "CC_COMMIT_FORMAT" "conventional"
  let commit_scopes := cfgGet config "CC_COMMIT_SCOPES" "core"
  let src_root := cfgGet config "CC_SRC_ROOT" "src"
  let test_root := cfgGet config "CC_TEST_ROOT" "tests"
  let compact_rules := cfgGet config "CC_COMPACT_RULES" ""
  let safety_rules := extract_safety_rules hook
  let agent_refs := build_agent_refs agents
  "# Project Conventions — " ++ project_name ++
  "\n\n## Project Identity\n- **Project**: " ++ project_name ++
  "\n- **Language**: " ++ language ++
  "\n- **Architecture**: " ++ architecture ++
  "\n- **Database**: " ++ database ++
  "\n\n## Code Standards\n- Follow " ++ language ++
  " community best practices\n- Run lint before every commit: `" ++ lint_cmd ++
  "`\n- Run tests: `" ++ test_cmd ++
  "`\n- All new code must have tests\n\n## Git Conventions\n- Main branch: `" ++ main_branch ++
  "`\n- Commit format: `type(scope): subject` (" ++ commit_format ++
  " format)\n- Scopes: " ++ commit_scopes ++
  "\n- NO AI/tool references in commit messages" ++
  "\n\n## Safety Rules (CRITICAL — MUST FOLLOW)\n" ++ safety_rules ++
  "\n\n## Architecture\nPattern: **" ++ architecture ++
  "**\nSource root: `" ++ src_root ++
  "`\nTest root: `" ++ test_root ++
  "`\n\n## Key Rules\n" ++ compact_rules ++
  "\n\n## Agent Context\n" ++ agent_refs ++ "\n"

/-- Content written to `CONVENTIONS.md`, branching on template presence. -/
def generate_conventions_doc (template : Option String) (config : List (String × String))
    (hook : HookFile) (agents : Option (List String)) : String :=
  match template with
  | some t => generate_conventions_template t config hook agents
  | none => generate_conventions_fallback config hook agents

/-! ## DocumentRenderer — Ignore (`generate_ignore`, generate.py
lines 256-298) -/

/-- The fixed baseline pattern lines of `.aiderignore`. -/
def ignoreBaseline : List String :=
  [ "# cognitive-core generated .aiderignore",
    "# Prevents Aider from reading sensitive files",
    "",
    "# Secrets and credentials",
    ".env",
    ".env.*",
    "*.pem",
    "*.key",
    "credentials.json",
    "secrets.yaml",
    "secrets.yml",
    "",
    "# Runtime logs",
    ".cognitive-core/cognitive-core/security.log",
    "",
    "# Build artifacts",
    "node_modules/",
    "__pycache__/",
    "*.pyc",
    ".git/",
    "",
    "# IDE and editor files",
    ".idea/",
    ".vscode/",
    "*.swp",
    "*.swo" ]

/-- The `lines` list of `generate_ignore`: baseline patterns, then — when a
non-empty blocked-patterns value is configured — a blank line, a section
header, and one line per whitespace-delimited token. -/
def generate_ignore_lines (config : List (String × String)) : List String :=
  let blocked := cfgGet config "CC_BLOCKED_PATTERNS" ""
  ignoreBaseline ++
    (if blocked = "" then []
     else ["", "# Project-specific blocked patterns"] ++ splitWs blocked)

/-- Content written to `.aiderignore`. -/
def generate_ignore_doc (config : List (String × String)) : String :=
  String.intercalate "\n" (generate_ignore_lines config) ++ "\n"

/-! ## DocumentRenderer — Launcher (`generate_launcher` /
`_generate_env_exports`, generate.py lines 301-358) -/

/-- `_generate_env_exports(env_vars)`. -/
def generate_env_exports (env_vars : String) : String :=
  if stripChars env_vars.data = [] then "# No additional environment variables configured"
  else
    let exports := (splitOnNl (stripChars env_vars.data)).filterMap (fun lc =>
      let l := stripChars lc
      if l ≠ [] ∧ l.any (fun c => c == '=') = true then some ("export " ++ String.mk l)
      else none)
    if exports = [] then "# No additional environment variables"
    else String.intercalate "\n" exports

/-- Content written to `cc-aider-start.sh`. -/
def generate_launcher_content (config : List (String × String)) : String :=
  let model := cfgGet config "CC_AIDER_MODEL" "qwen2.5-coder:32b"
  let ollama_base := cfgGet config "CC_AIDER_OLLAMA_BASE" "http://localhost:11434"
  let project_name := cfgGet config "CC_PROJECT_NAME" "project"
  let env_vars := cfgGet config "CC_ENV_VARS" ""
  "#!/bin/bash\n# cognitive-core Aider launcher — " ++ project_name ++
  "\n# Sets up environment and launches Aider with correct configuration" ++
  "\nset -euo pipefail\n\nSCRIPT_DIR=\"$(cd \"$(dirname \"$0\")\" && pwd)\"" ++
  "\n\n# Load cognitive-core configuration" ++
  "\nif [ -f \"$\x7bSCRIPT_DIR\x7d/cognitive-core.conf\" ]; then" ++
  "\n    # shellcheck disable=SC1091" ++
  "\n    source \"$\x7bSCRIPT_DIR\x7d/cognitive-core.conf\"\nfi" ++
  "\n\n# Set Ollama base URL" ++
  "\nexport OLLAMA_API_BASE=\"$\x7bCC_AIDER_OLLAMA_BASE:-" ++ ollama_base ++
  "\x7d\"\n\n# Environment variables from config\n" ++ generate_env_exports env_vars ++
  "\n\necho \"=== cognitive-core Aider launcher ===\"" ++
  "\necho \"Project:  " ++ project_name ++
  "\"\necho \"Model:    $\x7bCC_AIDER_MODEL:-" ++ model ++
  "\x7d\"\necho \"Ollama:   $\x7bOLLAMA_API_BASE\x7d\"\necho \"\"" ++
  "\n\n# Launch Aider with project configuration\nexec aider \"$@\"\n"

/-- Characters free of both placeholder braces. -/
def braceFree (l : List Char) : Prop := ∀ c ∈ l, c ≠ lb ∧ c ≠ rb

/-- Path components: nonempty and slash-free. -/
def compWf (l : List String) : Prop :=
  ∀ s ∈ l, s ≠ "" ∧ ∀ c ∈ s.data, c ≠ '/'

/-- The names of the fourteen recognized template placeholders. -/
def recognizedNames : List (List Char) :=
  [ "CC_PROJECT_NAME", "CC_LANGUAGE", "CC_ARCHITECTURE", "CC_DATABASE",
    "CC_LINT_COMMAND", "CC_TEST_COMMAND", "CC_MAIN_BRANCH", "CC_COMMIT_FORMAT",
    "CC_COMMIT_SCOPES", "CC_SRC_ROOT", "CC_TEST_ROOT", "CC_COMPACT_RULES",
    "SAFETY_RULES", "AGENT_CONTEXT" ].map String.data

/-! ## Renderer state model (for determinism / idempotence) -/

/-- The read-only filesystem inputs a rendering run observes. -/
structure FsInputs where
  agents : Option (List String)
  hook : HookFile
  template : Option String

/-- A rendering run's state: the fixed inputs plus the artifacts written so
far (the boolean on the launcher is its executable bit). -/
structure GenState where
  inputs : FsInputs
  settingsFile : Option String := none
  conventionsFile : Option String := none
  ignoreFile : Option String := none
  launcherFile : Option (String × Bool) := none

/-- `generate_settings` as a state transformer: overwrite `.aider.conf.yml`. -/
def runSettings (project_dir install_dir : List String)
    (config : List (String × String)) (σ : GenState) : GenState :=
  { σ with
    settingsFile := some (generate_settings_doc project_dir install_dir σ.inputs.agents config) }

/-- `generate_conventions` as a state transformer: overwrite `CONVENTIONS.md`. -/
def runConventions (config : List (String × String)) (σ : GenState) : GenState :=
  { σ with
    conventionsFile := some (generate_conventions_doc σ.inputs.template config σ.inputs.hook σ.inputs.agents) }

/-- `generate_ignore` as a state transformer: overwrite `.aiderignore`. -/
def runIgnore (config : List (String × String)) (σ : GenState) : GenState :=
  { σ with ignoreFile := some (generate_ignore_doc config) }

/-- `generate_launcher` as a state transformer: overwrite `cc-aider-start.sh`
and mark it executable. -/
def runLauncher (config : List (String × String)) (σ : GenState) : GenState :=
  { σ with launcherFile := some (generate_launcher_content config, true) }

end CogCore

open CogCore

/-- C1: for every config-file path that is empty or does not name an existing
file, and likewise on subprocess timeout or an unavailable bash interpreter,
`load_config` returns the empty ConfigMap.  (The function is total, so no
error is ever raised.) -/
theorem load_config_empty_on_failure
    (config_file : String) (isfile : Bool) (outcome : BashOutcome)
    (h : config_file = "" ∨ isfile = false ∨ outcome = .timeout ∨ outcome = .unavailable) :
    load_config config_file isfile outcome = [] := by
  rcases h with h | h | h | h
  · simp [load_config, h]
  · simp [load_config, h]
  · subst h; simp [load_config]
  · subst h; simp [load_config]

/-- C1 witness: instantiated at the empty path, a missing file, a timeout and
an unavailable interpreter. -/
theorem load_config_empty_on_failure_witness :
    load_config "" true (.ok "CC_X=1") = [] ∧
    load_config "/tmp/conf" false (.ok "CC_X=1") = [] ∧
    load_config "/tmp/conf" true .timeout = [] ∧
    load_config "/tmp/conf" true .unavailable = [] :=
  ⟨load_config_empty_on_failure _ _ _ (Or.inl rfl),
   load_config_empty_on_failure _ _ _ (Or.inr (Or.inl rfl)),
   load_config_empty_on_failure _ _ _ (Or.inr (Or.inr (Or.inl rfl))),
   load_config_empty_on_failure _ _ _ (Or.inr (Or.inr (Or.inr rfl)))⟩

/-- C2: whenever the hook file is absent, unreadable, or its text yields zero
matches of the quoted `Blocked:` reason pattern, `_extract_safety_rules`
returns exactly the built-in default rule list — a fixed order-stable
sequence of 12 rules — which is never an empty safety section. -/
theorem extract_safety_rules_default
    (hook : HookFile)
    (h : hook = .missing ∨ hook = .unreadable ∨
      ∃ content, hook = .readable content ∧ scanReasons content.data = []) :
    extract_safety_rules hook = default_safety_rules ∧
    defaultSafetyRulesList.length = 12 ∧
    default_safety_rules ≠ "" := by
  refine ⟨?_, by decide, by decide⟩
  rcases h with h | h | ⟨content, h, hz⟩
  · subst h; rfl
  · subst h; rfl
  · subst h
    simp [extract_safety_rules, extractRulesList, hz]

/-- C2 witness: a readable hook text with no `Blocked:` markers. -/
theorem extract_safety_rules_default_witness :
    extract_safety_rules (.readable "#!/bin/bash\nexit 0\n") = default_safety_rules ∧
    defaultSafetyRulesList.length = 12 ∧
    default_safety_rules ≠ "" :=
  extract_safety_rules_default (.readable "#!/bin/bash\nexit 0\n")
    (Or.inr (Or.inr ⟨"#!/bin/bash\nexit 0\n", rfl, by decide⟩))

/-- C3 counterexample: on the hook text
`REASON="Blocked: rm -rf /"` followed by `REASON="Blocked: force push"`,
the extractor does not return the rules `NEVER: rm -rf /` and
`NEVER: force push` as claimed: each extracted rule carries a leading
`- ` bullet, so the rules list and the joined section differ from the
claimed ones. -/
theorem extract_safety_rules_two_rules_counterexample :
    extractRulesList "REASON=\"Blocked: rm -rf /\"\nREASON=\"Blocked: force push\""
      ≠ ["NEVER: rm -rf /", "NEVER: force push"] ∧
    extract_safety_rules
      (.readable "REASON=\"Blocked: rm -rf /\"\nREASON=\"Blocked: force push\"")
      ≠ "NEVER: rm -rf /\nNEVER: force push" := by
  constructor
  · decide
  · decide

/-- C3 amended: each matched quoted reason is extracted in order of
appearance and formatted as a `- NEVER: <reason>` bullet rule; on the hook
text above the extractor returns exactly the two rules
`- NEVER: rm -rf /` and `- NEVER: force push`, in that order, joined by a
newline. -/
theorem extract_safety_rules_two_rules :
    extractRulesList "REASON=\"Blocked: rm -rf /\"\nREASON=\"Blocked: force push\""
      = ["- NEVER: rm -rf /", "- NEVER: force push"] ∧
    extract_safety_rules
      (.readable "REASON=\"Blocked: rm -rf /\"\nREASON=\"Blocked: force push\"")
      = "- NEVER: rm -rf /\n- NEVER: force push" := by
  constructor
  · decide
  · decide

/-- Membership is preserved by sorted insertion. -/
theorem mem_insertSorted {x y : String} {l : List String} :
    y ∈ insertSorted x l ↔ y = x ∨ y ∈ l := by
  induction l with
  | nil => simp [insertSorted]
  | cons a as ih =>
    simp only [insertSorted]
    by_cases h : lexLt a.data x.data
    · simp only [if_pos h, List.mem_cons, ih]
      tauto
    · simp only [if_neg h, List.mem_cons]

/-- Sorting produces no new elements. -/
theorem mem_sortStrings {x : String} {l : List String} (h : x ∈ sortStrings l) : x ∈ l := by
  induction l with
  | nil => simpa [sortStrings] using h
  | cons a as ih =>
    simp only [sortStrings, List.foldr] at h
    rcases mem_insertSorted.mp h with h | h
    · simp [h]
    · exact List.mem_cons_of_mem _ (ih h)

/-- C7: `_build_agent_refs` returns the identical sentinel message both when
the documentation directory is missing and when it exists but contains zero
files with the `.md` extension (even if non-empty). -/
theorem build_agent_refs_sentinel (agents : Option (List String))
    (h : agents = none ∨
      ∃ files, agents = some files ∧ ∀ f ∈ files, endsWithStr f ".md" = false) :
    build_agent_refs agents = "No agent documentation installed." := by
  rcases h with h | ⟨files, h, hnone⟩
  · subst h; rfl
  · subst h
    have hfilter : (sortStrings files).filter (fun f => endsWithStr f ".md") = [] := by
      rw [List.filter_eq_nil_iff]
      intro f hf
      simp [hnone f (mem_sortStrings hf)]
    simp [build_agent_refs, hfilter]

/-- C7 witness: a missing directory, and a non-empty directory with zero
`.md` files, both give the sentinel. -/
theorem build_agent_refs_sentinel_witness :
    build_agent_refs none = "No agent documentation installed." ∧
    build_agent_refs (some ["notes.txt", "README"]) = "No agent documentation installed." :=
  ⟨build_agent_refs_sentinel none (Or.inl rfl),
   build_agent_refs_sentinel (some ["notes.txt", "README"])
     (Or.inr ⟨["notes.txt", "README"], rfl, by decide⟩)⟩

/-- C6: the ignore document always starts with the fixed baseline patterns;
when a non-empty `CC_BLOCKED_PATTERNS` value is present, each
whitespace-delimited token becomes its own line, after the baseline and a
labeled section header, in token order; in particular
`CC_BLOCKED_PATTERNS="*.secret build/"` appends exactly `*.secret` then
`build/`. -/
theorem generate_ignore_blocked_patterns :
    (∀ config : List (String × String), ignoreBaseline <+: generate_ignore_lines config) ∧
    (∀ (config : List (String × String)) (b : String),
      config.lookup "CC_BLOCKED_PATTERNS" = some b → b ≠ "" →
      generate_ignore_lines config =
        ignoreBaseline ++ ["", "# Project-specific blocked patterns"] ++ splitWs b) ∧
    generate_ignore_lines [("CC_BLOCKED_PATTERNS", "*.secret build/")] =
      ignoreBaseline ++ ["", "# Project-specific blocked patterns", "*.secret", "build/"] := by
  refine ⟨fun config => ⟨_, rfl⟩, fun config b hb hne => ?_, by decide⟩
  have : cfgGet config "CC_BLOCKED_PATTERNS" "" = b := by simp [cfgGet, hb]
  simp [generate_ignore_lines, this, hne]

/-- C6 witness: the general blocked-patterns clause applied to the concrete
configuration. -/
theorem generate_ignore_blocked_patterns_witness :
    generate_ignore_lines [("CC_BLOCKED_PATTERNS", "*.secret build/")] =
      ignoreBaseline ++ ["", "# Project-specific blocked patterns"] ++
        splitWs "*.secret build/" :=
  generate_ignore_blocked_patterns.2.1 [("CC_BLOCKED_PATTERNS", "*.secret build/")]
    "*.secret build/" rfl (by decide)

/-- C4: every renderer is deterministic and idempotent: running a renderer
twice leaves the same state as running it once, and two runs over equal
filesystem inputs and the same ConfigMap write byte-identical content (the
content functions take no clock or randomness). -/
theorem renderers_deterministic_idempotent
    (project_dir install_dir : List String) (config : List (String × String))
    (σ σ' : GenState) (h : σ.inputs = σ'.inputs) :
    (runSettings project_dir install_dir config (runSettings project_dir install_dir config σ) =
       runSettings project_dir install_dir config σ ∧
     runConventions config (runConventions config σ) = runConventions config σ ∧
     runIgnore config (runIgnore config σ) = runIgnore config σ ∧
     runLauncher config (runLauncher config σ) = runLauncher config σ) ∧
    ((runSettings project_dir install_dir config σ).settingsFile =
       (runSettings project_dir install_dir config σ').settingsFile ∧
     (runConventions config σ).conventionsFile = (runConventions config σ').conventionsFile ∧
     (runIgnore config σ).ignoreFile = (runIgnore config σ').ignoreFile ∧
     (runLauncher config σ).launcherFile = (runLauncher config σ').launcherFile) := by
  refine ⟨⟨rfl, rfl, rfl, rfl⟩, ⟨?_, ?_, rfl, rfl⟩⟩
  · simp [runSettings, h]
  · simp [runConventions, h]

/-- C4 witness: instantiated on a concrete state, a second state with equal
inputs, and a concrete ConfigMap. -/
theorem renderers_deterministic_idempotent_witness :
    (GenState.mk ⟨none, .missing, none⟩ none none none none).inputs =
      (GenState.mk ⟨none, .missing, none⟩ (some "old") none none none).inputs ∧
    runIgnore [] (runIgnore [] (GenState.mk ⟨none, .missing, none⟩ none none none none)) =
      runIgnore [] (GenState.mk ⟨none, .missing, none⟩ none none none none) ∧
    (runLauncher [] (GenState.mk ⟨none, .missing, none⟩ none none none none)).launcherFile =
      (runLauncher [] (GenState.mk ⟨none, .missing, none⟩ (some "old") none none none)).launcherFile :=
  ⟨rfl,
   (renderers_deterministic_idempotent [] [] [] _ _ rfl).1.2.2.1,
   (renderers_deterministic_idempotent [] [] []
     (GenState.mk ⟨none, .missing, none⟩ none none none none)
     (GenState.mk ⟨none, .missing, none⟩ (some "old") none none none) rfl).2.2.2.2⟩

/-- C5: with `CC_PROJECT_NAME=demo` and `CC_AIDER_MODEL=llama3` the settings
document carries `llama3` on both the primary and the editor model line and
its read-only list begins with `CONVENTIONS.md`; for every ConfigMap without
`CC_AIDER_MODEL`, both role lines carry the fixed default model
`qwen2.5-coder:32b`. -/
theorem generate_settings_model_lines :
    (∀ (project_dir install_dir : List String) (agents : Option (List String)),
      ∃ rest,
        generate_settings_lines project_dir install_dir agents
            [("CC_PROJECT_NAME", "demo"), ("CC_AIDER_MODEL", "llama3")] =
          [ "# cognitive-core generated Aider configuration",
            "# Platform: aider + ollama",
            "# Project: demo",
            "",
            "# Model configuration",
            "model: ollama_chat/llama3",
            "editor-model: ollama_chat/llama3",
            "",
            "# Edit format",
            "edit-format: diff",
            "",
            "# Auto-lint after edits",
            "auto-lint: true",
            "lint-cmd: echo no-lint",
            "",
            "# Auto-test after edits",
            "auto-test: false",
            "test-cmd: echo no-tests",
            "",
            "# Read-only context files (always in context)",
            "read:",
            "  - CONVENTIONS.md" ] ++ rest) ∧
    (∀ (project_dir install_dir : List String) (agents : Option (List String))
        (config : List (String × String)),
      config.lookup "CC_AIDER_MODEL" = none →
      ∃ rest,
        generate_settings_lines project_dir install_dir agents config =
          [ "# cognitive-core generated Aider configuration",
            "# Platform: aider + ollama",
            "# Project: " ++ cfgGet config "CC_PROJECT_NAME" "project",
            "",
            "# Model configuration",
            "model: ollama_chat/qwen2.5-coder:32b",
            "editor-model: ollama_chat/qwen2.5-coder:32b",
            "",
            "# Edit format",
            "edit-format: " ++ cfgGet config "CC_AIDER_EDIT_FORMAT" "diff",
            "",
            "# Auto-lint after edits",
            "auto-lint: true",
            "lint-cmd: " ++ cfgGet config "CC_LINT_COMMAND" "echo no-lint",
            "",
            "# Auto-test after edits",
            "auto-test: false",
            "test-cmd: " ++ cfgGet config "CC_TEST_COMMAND" "echo no-tests",
            "",
            "# Read-only context files (always in context)",
            "read:",
            "  - CONVENTIONS.md" ] ++ rest) := by
  constructor
  · intro project_dir install_dir agents
    exact ⟨_, rfl⟩
  · intro project_dir install_dir agents config h
    have hm : cfgGet config "CC_AIDER_MODEL" "qwen2.5-coder:32b" = "qwen2.5-coder:32b" := by
      simp [cfgGet, h]
    simp only [generate_settings_lines, hm]
    exact ⟨_, rfl⟩

/-- C5 witness: the unset-model clause applied to the empty ConfigMap with no
agent listing. -/
theorem generate_settings_model_lines_witness :
    ([] : List (String × String)).lookup "CC_AIDER_MODEL" = none ∧
    ∃ rest,
      generate_settings_lines [] [] none [] =
        [ "# cognitive-core generated Aider configuration",
          "# Platform: aider + ollama",
          "# Project: " ++ cfgGet [] "CC_PROJECT_NAME" "project",
          "",
          "# Model configuration",
          "model: ollama_chat/qwen2.5-coder:32b",
          "editor-model: ollama_chat/qwen2.5-coder:32b",
          "",
          "# Edit format",
          "edit-format: " ++ cfgGet [] "CC_AIDER_EDIT_FORMAT" "diff",
          "",
          "# Auto-lint after edits",
          "auto-lint: true",
          "lint-cmd: " ++ cfgGet [] "CC_LINT_COMMAND" "echo no-lint",
          "",
          "# Auto-test after edits",
          "auto-test: false",
          "test-cmd: " ++ cfgGet [] "CC_TEST_COMMAND" "echo no-tests",
          "",
          "# Read-only context files (always in context)",
          "read:",
          "  - CONVENTIONS.md" ] ++ rest :=
  ⟨rfl, generate_settings_model_lines.2 [] [] none [] rfl⟩

/-- The common-prefix count never exceeds the second list's length. -/
theorem commonPrefixLen_le (path start : List String) :
    commonPrefixLen path start ≤ start.length := by
  induction path generalizing start with
  | nil => cases start <;> simp [commonPrefixLen]
  | cons a as ih =>
    cases start with
    | nil => simp [commonPrefixLen]
    | cons b bs =>
      by_cases h : a = b
      · simpa [commonPrefixLen, h] using ih bs
      · simp [commonPrefixLen, h]

/-- Against a literal extension of itself, the common-prefix count of the
second argument is its full length. -/
theorem commonPrefixLen_self_ext (p x : List String) :
    commonPrefixLen (p ++ x) p = p.length := by
  induction p with
  | nil => cases x <;> simp [commonPrefixLen]
  | cons b bs ih => simpa [commonPrefixLen] using ih

/-- A full common-prefix count makes the second list a prefix of the first. -/
theorem take_of_commonPrefixLen_full (path start : List String)
    (h : commonPrefixLen path start = start.length) :
    path.take start.length = start := by
  induction start generalizing path with
  | nil => simp
  | cons b bs ih =>
    cases path with
    | nil => simp [commonPrefixLen] at h
    | cons a as =>
      by_cases hab : a = b
      · subst hab
        simp [commonPrefixLen] at h
        simp [ih as h]
      · simp [commonPrefixLen, hab] at h

/-- Splitting at the first slash of a joined form is unambiguous when the
left pieces are slash-free. -/
theorem slash_split_eq {x y a b : List Char}
    (hx : ∀ c ∈ x, c ≠ '/') (hy : ∀ c ∈ y, c ≠ '/')
    (h : x ++ '/' :: a = y ++ '/' :: b) : x = y ∧ a = b := by
  induction x generalizing y with
  | nil =>
    cases y with
    | nil => simpa using h
    | cons d ys =>
      simp only [List.nil_append, List.cons_append, List.cons.injEq] at h
      exact absurd h.1.symm (hy d (by simp))
  | cons c xs ih =>
    cases y with
    | nil =>
      simp only [List.cons_append, List.nil_append, List.cons.injEq] at h
      exact absurd h.1 (hx c (by simp))
    | cons d ys =>
      simp only [List.cons_append, List.cons.injEq] at h
      obtain ⟨h1, h2⟩ := h
      obtain ⟨hxy, hab⟩ := ih (fun e he => hx e (List.mem_cons_of_mem _ he))
        (fun e he => hy e (List.mem_cons_of_mem _ he)) h2
      exact ⟨by rw [h1, hxy], hab⟩

/-- `joinSlash` is injective on lists of nonempty slash-free components. -/
theorem joinSlash_injOn {l₁ l₂ : List String}
    (h₁ : compWf l₁) (h₂ : compWf l₂) (h : joinSlash l₁ = joinSlash l₂) : l₁ = l₂ := by
  induction l₁ generalizing l₂ with
  | nil =>
    cases l₂ with
    | nil => rfl
    | cons y ys =>
      exfalso
      cases ys with
      | nil =>
        exact (h₂ y (by simp)).1 (by simpa [joinSlash] using h.symm)
      | cons z zs =>
        have := congrArg String.data h
        simp [joinSlash] at this
  | cons x xs ih =>
    cases l₂ with
    | nil =>
      exfalso
      cases xs with
      | nil =>
        exact (h₁ x (by simp)).1 (by simpa [joinSlash] using h)
      | cons z zs =>
        have := congrArg String.data h
        simp [joinSlash] at this
    | cons y ys =>
      cases xs with
      | nil =>
        cases ys with
        | nil => simpa [joinSlash] using h
        | cons z zs =>
          exfalso
          have hd := congrArg String.data h
          simp only [joinSlash, String.data_append] at hd
          have : '/' ∈ x.data := by
            rw [hd]
            simp
          exact (h₁ x (by simp)).2 '/' this rfl
      | cons w ws =>
        cases ys with
        | nil =>
          exfalso
          have hd := congrArg String.data h
          simp only [joinSlash, String.data_append] at hd
          have : '/' ∈ y.data := by
            rw [← hd]
            simp
          exact (h₂ y (by simp)).2 '/' this rfl
        | cons z zs =>
          have hd := congrArg String.data h
          simp only [joinSlash, String.data_append, List.append_assoc,
            List.cons_append, List.nil_append] at hd
          have hsplit := slash_split_eq
            (fun c hc => (h₁ x (by simp)).2 c hc)
            (fun c hc => (h₂ y (by simp)).2 c hc) (by simpa using hd)
          have hx : x = y := String.ext hsplit.1
          have hrest : joinSlash (w :: ws) = joinSlash (z :: zs) := String.ext hsplit.2
          have := ih (fun s hs => h₁ s (List.mem_cons_of_mem _ hs))
            (fun s hs => h₂ s (List.mem_cons_of_mem _ hs)) hrest
          rw [hx, this]

/-- C10: the conventions-side agent reference always uses the fixed
`.cognitive-core/agents/<file>` path, independent of where `install_dir`
actually is, while the settings renderer computes the path of the same file
relative to `project_dir` from the actual `install_dir`; the two emitted
paths coincide exactly when `install_dir` is `project_dir` joined with
`.cognitive-core`.  Paths are normalized component lists (nonempty,
slash-free components). -/
theorem settings_vs_refs_agent_path (install project : List String) (f : String)
    (hi : compWf install) (hf1 : f ≠ "") (hf2 : ∀ c ∈ f.data, c ≠ '/') :
    settingsAgentPath install project f = agentRefPath f ↔
      install = project ++ [".cognitive-core"] := by
  have h1 : (".cognitive-core" : String) ++ "/" = ".cognitive-core/" := by decide
  have h2 : ("agents" : String) ++ "/" = "agents/" := by decide
  have h3 : (".cognitive-core/" : String) ++ "agents/" = ".cognitive-core/agents/" := by decide
  have hjoin : joinSlash [".cognitive-core", "agents", f] = ".cognitive-core/agents/" ++ f := by
    show ".cognitive-core" ++ "/" ++ ("agents" ++ "/" ++ f) = ".cognitive-core/agents/" ++ f
    rw [h1, h2, ← String.append_assoc, h3]
  constructor
  · intro h
    by_cases hc : relpathComps (install ++ ["agents", f]) project = []
    · exfalso
      have hdot : settingsAgentPath install project f = "." := by
        simp [settingsAgentPath, relpath, hc]
      rw [hdot] at h
      have hd := congrArg String.data h
      simp only [agentRefPath, String.data_append] at hd
      have hlen := congrArg List.length hd
      simp at hlen
    · have hrel : settingsAgentPath install project f =
          joinSlash (relpathComps (install ++ ["agents", f]) project) := by
        simp [settingsAgentPath, relpath, hc]
      rw [hrel, show agentRefPath f = ".cognitive-core/agents/" ++ f from rfl, ← hjoin] at h
      have hwfL : compWf (relpathComps (install ++ ["agents", f]) project) := by
        intro s hs
        simp only [relpathComps, List.mem_append] at hs
        rcases hs with hs | hs
        · rw [List.eq_of_mem_replicate hs]
          exact ⟨by decide, by decide⟩
        · have hsP : s ∈ install ++ ["agents", f] := List.mem_of_mem_drop hs
          rcases List.mem_append.mp hsP with h' | h'
          · exact hi s h'
          · simp only [List.mem_cons, List.not_mem_nil, or_false] at h'
            rcases h' with h' | h'
            · subst h'; exact ⟨by decide, by decide⟩
            · subst h'; exact ⟨hf1, hf2⟩
      have hwfR : compWf [".cognitive-core", "agents", f] := by
        intro s hs
        simp only [List.mem_cons, List.not_mem_nil, or_false] at hs
        rcases hs with hs | hs | hs
        · subst hs; exact ⟨by decide, by decide⟩
        · subst hs; exact ⟨by decide, by decide⟩
        · subst hs; exact ⟨hf1, hf2⟩
      have hcomps := joinSlash_injOn hwfL hwfR h
      have hk : project.length - commonPrefixLen (install ++ ["agents", f]) project = 0 := by
        by_contra hk
        have hhead : (List.replicate
            (project.length - commonPrefixLen (install ++ ["agents", f]) project) ".." ++
            (install ++ ["agents", f]).drop
              (commonPrefixLen (install ++ ["agents", f]) project)).head? = some ".." := by
          cases hn : project.length - commonPrefixLen (install ++ ["agents", f]) project with
          | zero => exact absurd hn hk
          | succ m => simp [List.replicate_succ]
        rw [show (List.replicate
            (project.length - commonPrefixLen (install ++ ["agents", f]) project) ".." ++
            (install ++ ["agents", f]).drop
              (commonPrefixLen (install ++ ["agents", f]) project)) =
            relpathComps (install ++ ["agents", f]) project from rfl, hcomps] at hhead
        simp at hhead
      have hdrop : (install ++ ["agents", f]).drop
          (commonPrefixLen (install ++ ["agents", f]) project) =
          [".cognitive-core", "agents", f] := by
        have := hcomps
        rw [show relpathComps (install ++ ["agents", f]) project =
          List.replicate
            (project.length - commonPrefixLen (install ++ ["agents", f]) project) ".." ++
            (install ++ ["agents", f]).drop
              (commonPrefixLen (install ++ ["agents", f]) project) from rfl, hk] at this
        simpa using this
      have hile : commonPrefixLen (install ++ ["agents", f]) project ≤ project.length :=
        commonPrefixLen_le _ _
      have hieq : commonPrefixLen (install ++ ["agents", f]) project = project.length := by
        omega
      have htake : (install ++ ["agents", f]).take project.length = project :=
        take_of_commonPrefixLen_full _ _ hieq
      have hP : install ++ ["agents", f] = project ++ [".cognitive-core", "agents", f] := by
        conv_lhs => rw [← List.take_append_drop project.length (install ++ ["agents", f])]
        rw [htake, ← hieq, hdrop]
      have hP' : install ++ ["agents", f] =
          (project ++ [".cognitive-core"]) ++ ["agents", f] := by
        rw [hP]; simp
      exact (List.append_inj' hP' rfl).1
  · intro h
    subst h
    have hP : (project ++ [".cognitive-core"]) ++ ["agents", f] =
        project ++ [".cognitive-core", "agents", f] := by simp
    have hcpl : commonPrefixLen (project ++ [".cognitive-core", "agents", f]) project =
        project.length := commonPrefixLen_self_ext project _
    have hcomps : relpathComps ((project ++ [".cognitive-core"]) ++ ["agents", f]) project =
        [".cognitive-core", "agents", f] := by
      rw [show relpathComps ((project ++ [".cognitive-core"]) ++ ["agents", f]) project =
        List.replicate (project.length -
            commonPrefixLen ((project ++ [".cognitive-core"]) ++ ["agents", f]) project) ".." ++
          ((project ++ [".cognitive-core"]) ++ ["agents", f]).drop
            (commonPrefixLen ((project ++ [".cognitive-core"]) ++ ["agents", f]) project)
        from rfl, hP, hcpl]
      simp [List.drop_left']
    simp only [settingsAgentPath, relpath, hcomps]
    simp [hjoin, agentRefPath]

/-- C10 witness: with `install_dir = project/.cognitive-core` the two paths
coincide; the hypotheses hold for concrete normalized components. -/
theorem settings_vs_refs_agent_path_witness :
    compWf ["home", "user", "proj", ".cognitive-core"] ∧
    ("db.md" : String) ≠ "" ∧ (∀ c ∈ ("db.md" : String).data, c ≠ '/') ∧
    (settingsAgentPath ["home", "user", "proj", ".cognitive-core"] ["home", "user", "proj"]
        "db.md" = agentRefPath "db.md" ↔
      ["home", "user", "proj", ".cognitive-core"] =
        ["home", "user", "proj"] ++ [".cognitive-core"]) :=
  ⟨by unfold compWf; decide, by decide, by decide,
   settings_vs_refs_agent_path ["home", "user", "proj", ".cognitive-core"]
     ["home", "user", "proj"] "db.md" (by unfold compWf; decide) (by decide) (by decide)⟩

/-- Bool-level prefix test agrees with the prefix relation. -/
theorem isPrefixOf_iff {l₁ l₂ : List Char} : l₁.isPrefixOf l₂ = true ↔ l₁ <+: l₂ :=
  List.isPrefixOf_iff_prefix

/-- Unfolding `replaceAll` on the empty list. -/
theorem replaceAll_nil (old new : List Char) : replaceAll old new [] = [] := by
  rw [replaceAll]

/-- Unfolding `replaceAll` on a cons cell. -/
theorem replaceAll_cons (old new : List Char) (c : Char) (rest : List Char) :
    replaceAll old new (c :: rest) =
      if _h : old ≠ [] ∧ old.isPrefixOf (c :: rest) = true then
        new ++ replaceAll old new ((c :: rest).drop old.length)
      else c :: replaceAll old new rest := by
  rw [replaceAll]

/-- Dropping at most the first part of an append stays inside it. -/
theorem drop_append_le {α : Type} :
    ∀ (n : Nat) (l₁ l₂ : List α), n ≤ l₁.length → (l₁ ++ l₂).drop n = l₁.drop n ++ l₂ := by
  intro n
  induction n with
  | zero => intro l₁ l₂ _; simp
  | succ m ih =>
    intro l₁ l₂ h
    cases l₁ with
    | nil => simp at h
    | cons a as =>
      simp only [List.cons_append, List.drop_succ_cons]
      exact ih as l₂ (by simpa using h)

/-- A suffix of an append is a suffix of the right part or carries a nonempty
suffix of the left part. -/
theorem suffix_split {α : Type} {s xs ys : List α} (h : s <:+ xs ++ ys) :
    s <:+ ys ∨ ∃ t, t <:+ xs ∧ t ≠ [] ∧ s = t ++ ys := by
  induction xs with
  | nil => left; simpa using h
  | cons x xs ih =>
    rw [List.cons_append] at h
    rcases List.suffix_cons_iff.mp h with h | h
    · right
      exact ⟨x :: xs, List.suffix_rfl, by simp, by simpa using h⟩
    · rcases ih h with h | ⟨t, ht, htne, hs⟩
      · left; exact h
      · right; exact ⟨t, ht.trans (List.suffix_cons x xs), htne, hs⟩

/-- A closing key block is never a prefix of a different closing name block,
whatever follows. -/
theorem keyblock_no_pref {key : List Char} (hk : braceFree key) :
    ∀ name, braceFree name → key ≠ name → ∀ B,
      ¬ (key ++ [rb, rb]) <+: (name ++ ([rb, rb] ++ B)) := by
  induction key with
  | nil =>
    intro name hn hne B hp
    cases name with
    | nil => exact hne rfl
    | cons n ns =>
      rw [List.nil_append, List.cons_append] at hp
      have := (List.cons_prefix_cons.mp hp).1
      exact (hn n (by simp)).2 this.symm
  | cons k ks ih =>
    intro name hn hne B hp
    cases name with
    | nil =>
      rw [List.cons_append, List.nil_append] at hp
      have := (List.cons_prefix_cons.mp hp).1
      exact (hk k (by simp)).2 this
    | cons n ns =>
      rw [List.cons_append, List.cons_append] at hp
      obtain ⟨hkn, hp'⟩ := List.cons_prefix_cons.mp hp
      subst hkn
      exact ih (fun c hc => hk c (List.mem_cons_of_mem _ hc)) ns
        (fun c hc => hn c (List.mem_cons_of_mem _ hc))
        (fun he => hne (by rw [he])) B hp'

/-- The braces differ. -/
theorem lb_ne_rb : lb ≠ rb := by decide

/-- The full placeholder of `key` never matches starting inside the
placeholder of a different `name`: no nonempty suffix of `mkPh name`,
however extended, has `mkPh key` as a prefix. -/
theorem no_pref_at_tok_suffix {key name : List Char} (hk : braceFree key)
    (hn : braceFree name) (hne : key ≠ name) :
    ∀ s, s <:+ mkPh name → s ≠ [] → ∀ B, ¬ mkPh key <+: (s ++ B) := by
  intro s hs hsne B hp
  rcases List.suffix_cons_iff.mp hs with h | h
  · -- s is the whole token
    subst h
    simp only [mkPh, List.cons_append] at hp
    obtain ⟨-, hp⟩ := List.cons_prefix_cons.mp hp
    obtain ⟨-, hp⟩ := List.cons_prefix_cons.mp hp
    rw [List.append_assoc] at hp
    have hsp : key ++ [rb, rb] <+: key ++ ([rb, rb] ++ B) := List.prefix_append_right_inj key |>.mpr ⟨B, by simp⟩
    exact keyblock_no_pref hk name hn hne B (by simpa [List.append_assoc] using hp)
  rcases List.suffix_cons_iff.mp h with h | h
  · -- s = lb :: name ++ [rb, rb]
    subst h
    rw [List.cons_append] at hp
    obtain ⟨-, hp⟩ := List.cons_prefix_cons.mp hp
    cases name with
    | nil =>
      simp only [List.nil_append, List.cons_append] at hp
      have := (List.cons_prefix_cons.mp hp).1
      exact lb_ne_rb this
    | cons m ms =>
      rw [List.cons_append, List.cons_append] at hp
      have := (List.cons_prefix_cons.mp hp).1
      exact (hn m (by simp)).1 this.symm
  · -- s is a suffix of name ++ [rb, rb]
    rcases suffix_split h with h | ⟨t, ht, htne, hst⟩
    · -- s ∈ {[], [rb], [rb, rb]}
      rcases List.suffix_cons_iff.mp h with h | h
      · subst h
        rw [List.cons_append] at hp
        exact lb_ne_rb (List.cons_prefix_cons.mp hp).1
      rcases List.suffix_cons_iff.mp h with h | h
      · subst h
        rw [List.cons_append] at hp
        exact lb_ne_rb (List.cons_prefix_cons.mp hp).1
      · rw [List.suffix_nil.mp h] at hsne
        exact hsne rfl
    · -- s = (nonempty suffix of name) ++ [rb, rb]
      subst hst
      cases t with
      | nil => exact htne rfl
      | cons c cs =>
        rw [List.cons_append, List.cons_append] at hp
        have hc := (List.cons_prefix_cons.mp hp).1
        have : c ∈ name := ht.subset (by simp)
        exact (hn c this).1 hc.symm

/-- No nonempty proper suffix of `mkPh key` is a prefix of
`mkPh name ++ B`: a match cannot start to the left of a placeholder and end
inside or beyond it. -/
theorem no_pref_cross_aux {key name : List Char} (hk : braceFree key)
    (hn : braceFree name) :
    ∀ w, w <:+ mkPh key → w ≠ [] → w ≠ mkPh key → ∀ B, ¬ w <+: (mkPh name ++ B) := by
  intro w hw hwne hwproper B hp
  rcases List.suffix_cons_iff.mp hw with h | h
  · exact hwproper h
  rcases List.suffix_cons_iff.mp h with h | h
  · -- w = lb :: key ++ [rb, rb]
    subst h
    simp only [mkPh, List.cons_append] at hp
    obtain ⟨-, hp⟩ := List.cons_prefix_cons.mp hp
    cases key with
    | nil =>
      simp only [List.nil_append, List.cons_append] at hp
      exact lb_ne_rb ((List.cons_prefix_cons.mp hp).1).symm
    | cons k ks =>
      simp only [List.cons_append] at hp
      exact (hk k (by simp)).1 ((List.cons_prefix_cons.mp hp).1)
  · -- w is a suffix of key ++ [rb, rb]
    rcases suffix_split h with h | ⟨t, ht, htne, hwt⟩
    · rcases List.suffix_cons_iff.mp h with h | h
      · subst h
        simp only [mkPh, List.cons_append] at hp
        exact lb_ne_rb ((List.cons_prefix_cons.mp hp).1).symm
      rcases List.suffix_cons_iff.mp h with h | h
      · subst h
        simp only [mkPh, List.cons_append] at hp
        exact lb_ne_rb ((List.cons_prefix_cons.mp hp).1).symm
      · exact hwne (List.suffix_nil.mp h)
    · subst hwt
      cases t with
      | nil => exact htne rfl
      | cons c cs =>
        simp only [mkPh, List.cons_append] at hp
        have hc := (List.cons_prefix_cons.mp hp).1
        have : c ∈ key := ht.subset (by simp)
        exact (hk c this).1 hc

/-- Scanning through a region where the pattern can never start copies the
region verbatim. -/
theorem replaceAll_skip {old new tok : List Char}
    (hno : ∀ s, s <:+ tok → s ≠ [] → ∀ B, ¬ old <+: (s ++ B)) :
    ∀ s, s <:+ tok → ∀ B, replaceAll old new (s ++ B) = s ++ replaceAll old new B := by
  intro s
  induction s with
  | nil => intro _ B; simp
  | cons c cs ih =>
    intro hs B
    rw [List.cons_append, replaceAll_cons]
    have hng : ¬ (old ≠ [] ∧ old.isPrefixOf (c :: (cs ++ B)) = true) := by
      rintro ⟨-, h2⟩
      exact hno (c :: cs) hs (by simp) B (by
        rw [List.cons_append]
        exact isPrefixOf_iff.mp h2)
    rw [dif_neg hng, ih (((List.suffix_cons c cs).trans hs)) B]
    simp

/-- Replacing a recognized placeholder preserves any occurrence of a
different placeholder token: the output splits around the same token. -/
theorem replaceAll_preserves_token (new : List Char) {old tok : List Char}
    (hno : ∀ s, s <:+ tok → s ≠ [] → ∀ B, ¬ old <+: (s ++ B))
    (hcross : ∀ u B, u ≠ [] → u.length < old.length → ¬ old <+: (u ++ (tok ++ B)))
    (hold : old ≠ []) :
    ∀ n A B, A.length ≤ n → ∃ A' B',
      replaceAll old new (A ++ tok ++ B) = A' ++ tok ++ B' := by
  intro n
  induction n with
  | zero =>
    intro A B hA
    have hA0 : A = [] := List.length_eq_zero.mp (Nat.le_zero.mp hA)
    subst hA0
    refine ⟨[], replaceAll old new B, ?_⟩
    simp only [List.nil_append]
    exact replaceAll_skip hno tok List.suffix_rfl B
  | succ m ih =>
    intro A B hA
    cases A with
    | nil =>
      refine ⟨[], replaceAll old new B, ?_⟩
      simp only [List.nil_append]
      exact replaceAll_skip hno tok List.suffix_rfl B
    | cons c As =>
      have hone : 1 ≤ old.length := by
        cases old with
        | nil => exact absurd rfl hold
        | cons o os => simp
      by_cases hg : old ≠ [] ∧ old.isPrefixOf (c :: (As ++ tok ++ B)) = true
      · have hp : old <+: (c :: As) ++ (tok ++ B) := by
          have := isPrefixOf_iff.mp hg.2
          simpa [List.append_assoc] using this
        have hlen : old.length ≤ (c :: As).length := by
          by_contra hlt
          push_neg at hlt
          exact hcross (c :: As) B (by simp) hlt hp
        obtain ⟨A2, B2, hAB⟩ := ih ((c :: As).drop old.length) B (by
          simp only [List.length_drop, List.length_cons]
          simp only [List.length_cons] at hA
          omega)
        refine ⟨new ++ A2, B2, ?_⟩
        have harg : (c :: As) ++ tok ++ B = c :: (As ++ tok ++ B) := by simp
        have harg2 : c :: (As ++ tok ++ B) = (c :: As) ++ (tok ++ B) := by simp
        have hstep : replaceAll old new ((c :: As) ++ tok ++ B) =
            new ++ replaceAll old new ((c :: As).drop old.length ++ tok ++ B) := by
          rw [harg, replaceAll_cons, dif_pos hg]
          congr 1
          rw [harg2, drop_append_le old.length (c :: As) (tok ++ B) hlen,
            ← List.append_assoc]
        rw [hstep, hAB]
        simp
      · obtain ⟨A2, B2, hAB⟩ := ih As B (by
          simp only [List.length_cons] at hA
          omega)
        refine ⟨c :: A2, B2, ?_⟩
        have harg : (c :: As) ++ tok ++ B = c :: (As ++ tok ++ B) := by simp
        rw [harg, replaceAll_cons, dif_neg hg, hAB]
        simp

/-- Taking at most the first part of an append stays inside it. -/
theorem take_append_le {α : Type} :
    ∀ (n : Nat) (l₁ l₂ : List α), n ≤ l₁.length → (l₁ ++ l₂).take n = l₁.take n := by
  intro n
  induction n with
  | zero => intro l₁ l₂ _; simp
  | succ m ih =>
    intro l₁ l₂ h
    cases l₁ with
    | nil => simp at h
    | cons a as =>
      simp only [List.cons_append, List.take_succ_cons]
      rw [ih as l₂ (by simpa using h)]

/-- If no nonempty proper suffix of `old` is a prefix of `tok ++ B`, then a
match of `old` cannot start strictly before `tok` and reach into it. -/
theorem cross_from_suffixes {old tok : List Char}
    (hsuf : ∀ w, w <:+ old → w ≠ [] → w ≠ old → ∀ B, ¬ w <+: (tok ++ B)) :
    ∀ u B, u ≠ [] → u.length < old.length → ¬ old <+: (u ++ (tok ++ B)) := by
  intro u B hu hlen hp
  obtain ⟨t, ht⟩ := hp
  have hupfx : old.take u.length = u := by
    have h1 := congrArg (List.take u.length) ht
    rw [take_append_le u.length old t (Nat.le_of_lt hlen),
      take_append_le u.length u (tok ++ B) (Nat.le_refl _), List.take_length] at h1
    exact h1
  have hold_split : old = u ++ old.drop u.length := by
    conv_lhs => rw [← List.take_append_drop u.length old]
    rw [hupfx]
  have hw : old.drop u.length ++ t = tok ++ B := by
    rw [hold_split, List.append_assoc] at ht
    exact List.append_inj_right ht rfl
  refine hsuf (old.drop u.length) (List.drop_suffix _ _) ?_ ?_ B ⟨t, hw⟩
  · intro he
    have hl2 := congrArg List.length he
    simp at hl2
    omega
  · intro he
    have hl2 := congrArg List.length he
    have hupos : 0 < u.length := List.length_pos.mpr hu
    simp at hl2
    omega

/-- Folding the replacement table over a text containing an unrecognized
placeholder token keeps the token intact. -/
theorem renderTemplate_preserves_token {name : List Char} (hn : braceFree name) :
    ∀ (pairs : List (List Char × List Char)),
      (∀ p ∈ pairs, ∃ key, p.1 = mkPh key ∧ braceFree key ∧ key ≠ name) →
      ∀ A B, ∃ A' B',
        renderTemplate (A ++ mkPh name ++ B) pairs = A' ++ mkPh name ++ B' := by
  intro pairs
  induction pairs with
  | nil => intro _ A B; exact ⟨A, B, rfl⟩
  | cons p ps ih =>
    intro hps A B
    obtain ⟨key, hp1, hkbf, hkne⟩ := hps p (by simp)
    have hno := no_pref_at_tok_suffix hkbf hn hkne
    have hcross := cross_from_suffixes
      (fun w hw hwne hwproper B => no_pref_cross_aux hkbf hn w hw hwne hwproper B)
    have hnil : mkPh key ≠ [] := by simp [mkPh]
    obtain ⟨A1, B1, h1⟩ := replaceAll_preserves_token p.2 hno hcross hnil
      A.length A B (Nat.le_refl _)
    have hfold : renderTemplate (A ++ mkPh name ++ B) (p :: ps) =
        renderTemplate (replaceAll p.1 p.2 (A ++ mkPh name ++ B)) ps := rfl
    rw [hfold, hp1, h1]
    exact ih (fun q hq => hps q (List.mem_cons_of_mem _ hq)) A1 B1

/-- C8: in the template rendering path, every placeholder token whose name is
not one of the fourteen recognized keys (twelve configuration placeholders
plus the safety-rules and agent-context blocks) appears verbatim and
unchanged in the rendered output; rendering is total, so no error is raised
for it. -/
theorem conventions_unmatched_placeholder_verbatim
    (config : List (String × String)) (hook : HookFile) (agents : Option (List String))
    (A B name : List Char) (hbf : braceFree name) (hrec : name ∉ recognizedNames) :
    ∃ A' B',
      (generate_conventions_template (String.mk (A ++ mkPh name ++ B))
          config hook agents).data = A' ++ mkPh name ++ B' := by
  have hpairs : ∀ p ∈ conventionsPairs config hook agents,
      ∃ key, p.1 = mkPh key ∧ braceFree key ∧ key ≠ name := by
    intro p hp
    simp only [conventionsPairs, List.mem_cons, List.not_mem_nil, or_false] at hp
    rcases hp with h | h | h | h | h | h | h | h | h | h | h | h | h | h <;> subst h <;>
      exact ⟨_, rfl, by unfold braceFree; decide,
        fun he => hrec (he ▸ (by decide))⟩
  obtain ⟨A', B', h⟩ :=
    renderTemplate_preserves_token hbf (conventionsPairs config hook agents) hpairs A B
  exact ⟨A', B', h⟩

/-- C8 witness: a template with the unrecognized placeholder `UNKNOWN_KEY`
between two text pieces, rendered under the empty configuration. -/
theorem conventions_unmatched_placeholder_verbatim_witness :
    braceFree ("UNKNOWN_KEY".data) ∧ "UNKNOWN_KEY".data ∉ recognizedNames ∧
    ∃ A' B',
      (generate_conventions_template
          (String.mk ("Hello ".data ++ mkPh "UNKNOWN_KEY".data ++ " end".data))
          [] .missing none).data = A' ++ mkPh "UNKNOWN_KEY".data ++ B' :=
  ⟨by unfold braceFree; decide, by decide,
   conventions_unmatched_placeholder_verbatim [] .missing none
     "Hello ".data " end".data "UNKNOWN_KEY".data
     (by unfold braceFree; decide) (by decide)⟩

/-- Unpacking `entryWf`. -/
theorem entryWf_props {kv : String × String} (h : entryWf kv = true) :
    (∀ c ∈ kv.1.data, c ≠ '\n' ∧ c ≠ '=') ∧ (∀ c ∈ kv.2.data, c ≠ '\n') ∧
      Option.all (fun c => !isSpace c) kv.2.data.getLast? = true := by
  simp only [entryWf, Bool.and_eq_true, Bool.not_eq_true', List.any_eq_false] at h
  obtain ⟨⟨h1, h2⟩, h3⟩ := h
  refine ⟨fun c hc => ?_, fun c hc => ?_, h3⟩
  · have := h1 c hc
    simpa using this
  · have := h2 c hc
    simpa using this

/-- A printed environment line is never empty. -/
theorem envLine_ne_nil (kv : String × String) : envLine kv ≠ [] := by
  simp [envLine]

/-- A well-formed entry prints a line without newlines. -/
theorem envLine_no_nl {kv : String × String} (h : entryWf kv = true) :
    '\n' ∉ envLine kv := by
  obtain ⟨h1, h2, -⟩ := entryWf_props h
  intro hmem
  rw [envLine] at hmem
  rcases List.mem_append.mp hmem with hm | hm
  · exact (h1 _ hm).1 rfl
  · rcases List.mem_cons.mp hm with hm | hm
    · exact absurd hm (by decide)
    · exact (h2 _ hm) rfl

/-- A well-formed entry's line does not end in whitespace. -/
theorem envLine_getLast {kv : String × String} (h : entryWf kv = true) :
    ∀ c, (envLine kv).getLast? = some c → isSpace c = false := by
  obtain ⟨-, -, h3⟩ := entryWf_props h
  intro c hc
  rw [envLine, List.getLast?_append] at hc
  cases hv : kv.2.data with
  | nil =>
    rw [hv] at hc
    simp at hc
    subst hc
    decide
  | cons d ds =>
    rw [hv, List.getLast?_cons_cons] at hc
    rw [hv] at h3
    cases hlast : (d :: ds).getLast? with
    | none => simp [List.getLast?_eq_none_iff] at hlast
    | some y =>
      rw [hlast] at hc h3
      simp only [Option.all] at h3
      simp at hc
      subst hc
      simpa using h3

/-- Dropping while a predicate fails on the head is the identity. -/
theorem dropWhile_head_eq_self {p : Char → Bool} {l : List Char}
    (h : ∀ c, l.head? = some c → p c = false) : l.dropWhile p = l := by
  cases l with
  | nil => rfl
  | cons c cs =>
    rw [List.dropWhile_cons_of_neg]
    simp [h c rfl]

/-- `strip` is the identity on text whose first and last characters are not
whitespace. -/
theorem strip_eq_self {l : List Char}
    (h1 : ∀ c, l.head? = some c → isSpace c = false)
    (h2 : ∀ c, l.getLast? = some c → isSpace c = false) :
    stripChars l = l := by
  rw [stripChars, dropWhile_head_eq_self h1,
    dropWhile_head_eq_self (fun c hc => h2 c (by rwa [List.head?_reverse] at hc)),
    List.reverse_reverse]

/-- Splitting newline-free text is trivial. -/
theorem splitOnNl_no_nl {l : List Char} (h : '\n' ∉ l) : splitOnNl l = [l] := by
  induction l with
  | nil => rfl
  | cons c cs ih =>
    have hc : ¬ c = '\n' := fun he => h (he ▸ List.mem_cons_self _ _)
    rw [splitOnNl, if_neg hc, ih (fun hm => h (List.mem_cons_of_mem _ hm))]

/-- Splitting peels a leading newline-free line. -/
theorem splitOnNl_append {l rest : List Char} (h : '\n' ∉ l) :
    splitOnNl (l ++ '\n' :: rest) = l :: splitOnNl rest := by
  induction l with
  | nil => simp [splitOnNl]
  | cons c cs ih =>
    have hc : ¬ c = '\n' := fun he => h (he ▸ List.mem_cons_self _ _)
    rw [List.cons_append, splitOnNl, if_neg hc,
      ih (fun hm => h (List.mem_cons_of_mem _ hm))]

/-- Splitting inverts joining for nonempty lists of newline-free lines. -/
theorem splitOnNl_intercalate :
    ∀ (ls : List (List Char)), (∀ l ∈ ls, '\n' ∉ l) → ls ≠ [] →
      splitOnNl (intercalateNl ls) = ls := by
  intro ls
  induction ls with
  | nil => intro _ h; exact absurd rfl h
  | cons l ls2 ih =>
    intro hno _
    cases ls2 with
    | nil => exact splitOnNl_no_nl (hno l (by simp))
    | cons l2 ls3 =>
      rw [show intercalateNl (l :: l2 :: ls3) = l ++ '\n' :: intercalateNl (l2 :: ls3)
          from rfl,
        splitOnNl_append (hno l (by simp)),
        ih (fun x hx => hno x (List.mem_cons_of_mem _ hx)) (by simp)]

/-- A join of nonempty lines is nonempty. -/
theorem intercalateNl_ne_nil {ls : List (List Char)} (h1 : ls ≠ [])
    (h2 : ∀ l ∈ ls, l ≠ []) : intercalateNl ls ≠ [] := by
  cases ls with
  | nil => exact absurd rfl h1
  | cons l ls2 =>
    cases ls2 with
    | nil => exact h2 l (by simp)
    | cons l2 ls3 => simp [intercalateNl]

/-- The head of a join whose lines all start with `C` is `C`. -/
theorem intercalateNl_head {ls : List (List Char)}
    (hhead : ∀ l ∈ ls, ∃ u, l = 'C' :: u) :
    ∀ d, (intercalateNl ls).head? = some d → isSpace d = false := by
  intro d hd
  cases ls with
  | nil => simp [intercalateNl] at hd
  | cons l ls2 =>
    obtain ⟨u, hu⟩ := hhead l (by simp)
    cases ls2 with
    | nil =>
      rw [show intercalateNl [l] = l from rfl, hu] at hd
      simp at hd
      subst hd
      decide
    | cons l2 ls3 =>
      rw [show intercalateNl (l :: l2 :: ls3) = l ++ '\n' :: intercalateNl (l2 :: ls3)
          from rfl, hu] at hd
      simp at hd
      subst hd
      decide

/-- The last character of a join of nonempty lines is the last character of
one of the lines. -/
theorem intercalateNl_getLast :
    ∀ (ls : List (List Char)), ls ≠ [] → (∀ l ∈ ls, l ≠ []) →
      ∃ last, last ∈ ls ∧ (intercalateNl ls).getLast? = last.getLast? := by
  intro ls
  induction ls with
  | nil => intro h _; exact absurd rfl h
  | cons l ls2 ih =>
    intro _ h2
    cases ls2 with
    | nil => exact ⟨l, by simp, rfl⟩
    | cons l2 ls3 =>
      obtain ⟨last, hmem, hlast⟩ := ih (by simp)
        (fun x hx => h2 x (List.mem_cons_of_mem _ hx))
      refine ⟨last, List.mem_cons_of_mem _ hmem, ?_⟩
      rw [show intercalateNl (l :: l2 :: ls3) = l ++ '\n' :: intercalateNl (l2 :: ls3)
          from rfl, List.getLast?_append]
      have hX : intercalateNl (l2 :: ls3) ≠ [] := intercalateNl_ne_nil (by simp)
        (fun x hx => h2 x (List.mem_cons_of_mem _ hx))
      cases hy : (intercalateNl (l2 :: ls3)).getLast? with
      | none => exact absurd (List.getLast?_eq_none_iff.mp hy) hX
      | some y =>
        rw [show ('\n' :: intercalateNl (l2 :: ls3)) = ['\n'] ++ intercalateNl (l2 :: ls3)
            from rfl, List.getLast?_append, hy]
        rw [hy] at hlast
        simpa using hlast

/-- `partition("=")` on a line `key=value` with an equals-free key. -/
theorem takeWhile_key {x : List Char} (v : List Char) (hx : ∀ c ∈ x, c ≠ '=') :
    (x ++ '=' :: v).takeWhile (fun c => c != '=') = x ∧
    (x ++ '=' :: v).dropWhile (fun c => c != '=') = '=' :: v := by
  induction x with
  | nil =>
    constructor
    · rw [List.nil_append, List.takeWhile_cons_of_neg] <;> simp
    · rw [List.nil_append, List.dropWhile_cons_of_neg] <;> simp
  | cons c cs ih =>
    have hc : (c != '=') = true := by
      simpa using hx c (by simp)
    obtain ⟨ih1, ih2⟩ := ih (fun e he => hx e (List.mem_cons_of_mem _ he))
    constructor
    · simp [List.takeWhile_cons, hc, ih1]
    · simp [List.dropWhile_cons, hc, ih2]

/-- Inserting a fresh key appends the binding. -/
theorem dictInsert_fresh {m : List (String × String)} {k v : String}
    (h : k ∉ m.map Prod.fst) : dictInsert m k v = m ++ [(k, v)] := by
  rw [dictInsert, if_neg]
  intro hany
  simp only [List.any_eq_true] at hany
  obtain ⟨kv, hkv, hbeq⟩ := hany
  exact h (List.mem_map.mpr ⟨kv, hkv, by simpa using hbeq⟩)

/-- Folding fresh inserts over distinct keys appends all bindings. -/
theorem foldl_dictInsert_app :
    ∀ (pairs m : List (String × String)), ((m ++ pairs).map Prod.fst).Nodup →
      pairs.foldl (fun acc kv => dictInsert acc kv.1 kv.2) m = m ++ pairs := by
  intro pairs
  induction pairs with
  | nil => intro m _; simp
  | cons p ps ih =>
    intro m hnd
    have hfresh : p.1 ∉ m.map Prod.fst := by
      intro hmem
      rw [List.map_append] at hnd
      obtain ⟨-, -, hdisj⟩ := List.nodup_append.mp hnd
      exact hdisj hmem (by simp)
    simp only [List.foldl_cons]
    rw [dictInsert_fresh hfresh]
    have harr : ((m ++ [p]) ++ ps).map Prod.fst = (m ++ p :: ps).map Prod.fst := by
      simp
    rw [ih (m ++ [p]) (by rw [harr]; exact hnd)]
    simp

/-- Looking up a member of a distinct-keys association list. -/
theorem lookup_of_mem_nodup {k v : String} :
    ∀ (pairs : List (String × String)), (k, v) ∈ pairs →
      (pairs.map Prod.fst).Nodup → pairs.lookup k = some v := by
  intro pairs
  induction pairs with
  | nil => intro h _; simp at h
  | cons p ps ih =>
    intro hmem hnd
    obtain ⟨k', v'⟩ := p
    rcases List.mem_cons.mp hmem with h | h
    · obtain ⟨hk, hv⟩ := Prod.mk.injEq .. ▸ h
      subst hk
      subst hv
      simp [List.lookup]
    · have hk' : (k == k') = false := by
        simp only [beq_eq_false_iff_ne, ne_eq]
        intro he
        subst he
        simp only [List.map_cons, List.nodup_cons] at hnd
        exact hnd.1 (List.mem_map.mpr ⟨(k, v), h, rfl⟩)
      rw [List.lookup, hk']
      simp only [List.map_cons, List.nodup_cons] at hnd
      exact ih h hnd.2

/-- Parsing the printed lines of well-formed entries re-inserts exactly the
entries themselves. -/
theorem foldl_parse_lines :
    ∀ (pairs : List (String × String)) (m : List (String × String)),
      (∀ kv ∈ pairs, entryWf kv = true) →
      (pairs.map envLine).foldl
        (fun m line =>
          if line.any (fun c => c == '=') then
            dictInsert m (String.mk (line.takeWhile (fun c => c != '=')))
              (String.mk ((line.dropWhile (fun c => c != '=')).tail))
          else m) m =
      pairs.foldl (fun acc kv => dictInsert acc kv.1 kv.2) m := by
  intro pairs
  induction pairs with
  | nil => intro m _; rfl
  | cons kv ps ih =>
    intro m hwf
    obtain ⟨hkey, -, -⟩ := entryWf_props (hwf kv (by simp))
    obtain ⟨h1, h2⟩ := takeWhile_key kv.2.data
      (fun c hc => (hkey c hc).2)
    have h3 : (envLine kv).any (fun c => c == '=') = true := by
      rw [List.any_eq_true]
      exact ⟨'=', by rw [envLine]; simp, by simp⟩
    simp only [List.map_cons, List.foldl_cons, envLine] at h1 h2 h3 ⊢
    rw [if_pos h3, h1, h2]
    have hkeystr : String.mk kv.1.data = kv.1 := String.ext rfl
    have hvalstr : String.mk (('=' :: kv.2.data).tail) = kv.2 := String.ext rfl
    rw [hkeystr, hvalstr]
    exact ih (dictInsert m kv.1 kv.2) (fun q hq => hwf q (List.mem_cons_of_mem _ hq))

/-- C9: the loaded ConfigMap depends on the generator's ambient environment,
not only on the config file's text: for an existing config file, every
`CC_`-prefixed variable the bash subprocess inherits appears (with its value)
in the returned ConfigMap even when the file assigns nothing, and two runs on
the same file under different ambient `CC_` environments return different
ConfigMaps. -/
theorem load_config_ambient_env :
    (∀ (env : List (String × String)) (config_file k v : String),
      envWf env → config_file ≠ "" → (k, v) ∈ env →
      "CC_".data.isPrefixOf k.data = true →
      (load_config config_file true (.ok (bashStdout env))).lookup k = some v) ∧
    load_config "cognitive-core.conf" true
        (.ok (bashStdout [("CC_AIDER_MODEL", "llama3")])) ≠
      load_config "cognitive-core.conf" true
        (.ok (bashStdout [("CC_AIDER_MODEL", "qwen")])) := by
  constructor
  · intro env config_file k v hwf hf hmem hpfx
    have hload : load_config config_file true (.ok (bashStdout env)) =
        parseStdout (bashStdout env) := by
      simp [load_config, hf]
    rw [hload]
    set kept := env.filter (fun kv => "CC_".data.isPrefixOf (envLine kv)) with hkeptdef
    have hlines : envOutLines env = kept.map envLine := by
      rw [envOutLines, List.filter_map]
      rfl
    have hkwf : ∀ kv ∈ kept, entryWf kv = true :=
      fun kv hkv => hwf.2 kv (List.mem_of_mem_filter hkv)
    have hmemkept : (k, v) ∈ kept := by
      rw [hkeptdef]
      refine List.mem_filter.mpr ⟨hmem, ?_⟩
      rw [isPrefixOf_iff] at hpfx ⊢
      exact hpfx.trans (List.prefix_append _ _)
    have hknodup : (kept.map Prod.fst).Nodup :=
      List.Nodup.sublist ((List.filter_sublist env).map Prod.fst) hwf.1
    have hne : kept.map envLine ≠ [] :=
      List.ne_nil_of_mem (List.mem_map_of_mem envLine hmemkept)
    have hnonl : ∀ l ∈ kept.map envLine, '\n' ∉ l := by
      intro l hl
      obtain ⟨kv, hkv, rfl⟩ := List.mem_map.mp hl
      exact envLine_no_nl (hkwf kv hkv)
    have hlstne : ∀ l ∈ kept.map envLine, l ≠ [] := by
      intro l hl
      obtain ⟨kv, hkv, rfl⟩ := List.mem_map.mp hl
      exact envLine_ne_nil kv
    have hhead : ∀ l ∈ kept.map envLine, ∃ u, l = 'C' :: u := by
      intro l hl
      obtain ⟨kv, hkv, rfl⟩ := List.mem_map.mp hl
      have hkv' : kv ∈ env.filter (fun kv => "CC_".data.isPrefixOf (envLine kv)) := by
        rw [← hkeptdef]; exact hkv
      have hpfx' := (List.mem_filter.mp hkv').2
      rw [isPrefixOf_iff] at hpfx'
      obtain ⟨t, ht⟩ := hpfx'
      exact ⟨'C' :: '_' :: t, by rw [← ht]; rfl⟩
    have hlast : ∀ c, (intercalateNl (kept.map envLine)).getLast? = some c →
        isSpace c = false := by
      intro c hc
      obtain ⟨last, hmem', hl⟩ := intercalateNl_getLast (kept.map envLine) hne hlstne
      rw [hl] at hc
      obtain ⟨kv, hkv, rfl⟩ := List.mem_map.mp hmem'
      exact envLine_getLast (hkwf kv hkv) c hc
    have hdata : (bashStdout env).data = intercalateNl (kept.map envLine) := by
      show intercalateNl (envOutLines env) = intercalateNl (kept.map envLine)
      rw [hlines]
    have hparse : parseStdout (bashStdout env) = kept := by
      rw [parseStdout, hdata,
        strip_eq_self (intercalateNl_head hhead) hlast,
        splitOnNl_intercalate (kept.map envLine) hnonl hne,
        foldl_parse_lines kept [] hkwf,
        foldl_dictInsert_app kept [] (by simpa using hknodup)]
      simp
    rw [hparse]
    exact lookup_of_mem_nodup kept hmemkept hknodup
  · decide

/-- C9 witness: a one-variable ambient environment with an assignment-free
config file; the variable appears in the loaded ConfigMap. -/
theorem load_config_ambient_env_witness :
    envWf [("CC_AIDER_MODEL", "llama3")] ∧
    ("cognitive-core.conf" : String) ≠ "" ∧
    ("CC_AIDER_MODEL", "llama3") ∈ [(("CC_AIDER_MODEL" : String), ("llama3" : String))] ∧
    "CC_".data.isPrefixOf ("CC_AIDER_MODEL" : String).data = true ∧
    (load_config "cognitive-core.conf" true
        (.ok (bashStdout [("CC_AIDER_MODEL", "llama3")]))).lookup "CC_AIDER_MODEL" =
      some "llama3" :=
  ⟨by unfold envWf; exact ⟨by decide, by decide⟩, by decide, by decide, by decide,
   load_config_ambient_env.1 [("CC_AIDER_MODEL", "llama3")] "cognitive-core.conf"
     "CC_AIDER_MODEL" "llama3" (by unfold envWf; exact ⟨by decide, by decide⟩)
     (by decide) (by decide) (by decide)⟩
